import Mathlib

/-!
# loggregator-tools: reliability test runner and source manager

A shallow embedding of
`experimental/reliability/worker/internal/client/runner.go`
(`Run`, `writeLogs`, `receiveLogs`, `prime`) and of the spy orchestrator of
`syslog-forwarder/internal/stream/source_manager_test.go`.

Channels and timers are modelled by the sequence of `select` outcomes a loop
consumes: each element of a `List Event` is the case that one iteration of a
`for { select { ... } }` loop took.  A loop whose event list runs out is still
blocked and has no result (`none`).  `uint64` counters are natural numbers
reduced modulo `2 ^ 64` at every increment.
-/

namespace Reliability

/-! ## Data model -/

/-- Go byte slices and strings are sequences of bytes. -/
abbrev Bytes := List UInt8

/-- A non-nil Go `error` value, identified by its message; `nil` is `none`. -/
abbrev GoError := String

/-- The wrap-around bound of `uint64`. -/
def uint64Size : Nat := 2 ^ 64

/-- The `events.Envelope_EventType` enumeration of sonde-go. -/
inductive EventType where
  | HttpStartStop
  | LogMessage
  | ValueMetric
  | CounterEvent
  | Error
  | ContainerMetric
  deriving DecidableEq

/-- The `events.LogMessage` record; only the `Message` field is read. -/
structure LogMessage where
  message : Option Bytes
  deriving DecidableEq

/-- The `events.Envelope` record; only the event type and the log message
are read.  Both are optional protobuf fields. -/
structure Envelope where
  eventType : Option EventType
  logMessage : Option LogMessage
  deriving DecidableEq

/-- The getter `(*Envelope).GetEventType`: nil-safe, defaulting to
`HttpStartStop`. -/
def GetEventType : Option Envelope → EventType
  | some ⟨some t, _⟩ => t
  | _ => EventType.HttpStartStop

/-- The getter `(*Envelope).GetLogMessage`: nil-safe. -/
def GetLogMessage : Option Envelope → Option LogMessage
  | some e => e.logMessage
  | none => none

/-- The getter `(*LogMessage).GetMessage`: nil-safe, a nil slice is empty. -/
def GetMessage : Option LogMessage → Bytes
  | some ⟨some b⟩ => b
  | _ => []

/-- One outcome of a `select` over the deadline, the error channel and the
message channel.  A receive from a closed channel yields the zero value
(`none`). -/
inductive Event where
  | ctxDone
  | errRecv (err : Option GoError)
  | msgRecv (msg : Option Envelope)
  deriving DecidableEq

/-! ## Library functions used by the runner -/

/-- `bytes.Contains(b, subslice)`: does `subslice` occur in `b`?  The empty
slice occurs in every slice. -/
def bytesContains : Bytes → Bytes → Bool
  | [], sub => sub.isEmpty
  | x :: t, sub => sub.isPrefixOf (x :: t) || bytesContains t sub

/-- The bytes of the string literal `" - PRIMER"`. -/
def primerSuffix : Bytes := [32, 45, 32, 80, 82, 73, 77, 69, 82]

/-- The bytes of the string literal `" - TEST"`. -/
def testSuffix : Bytes := [32, 45, 32, 84, 69, 83, 84]

/-- The ASCII byte of a decimal digit. -/
def digitByte (d : Nat) : UInt8 := UInt8.ofNat (48 + d)

/-- Decimal digits of a natural number, most significant first, prepended to
an accumulator; `fuel` bounds the number of digits. -/
def fmtNatAux : Nat → Nat → Bytes → Bytes
  | 0, n, acc => digitByte (n % 10) :: acc
  | fuel + 1, n, acc =>
    if n < 10 then digitByte n :: acc
    else fmtNatAux fuel (n / 10) (digitByte (n % 10) :: acc)

/-- What `%d` prints for a non-negative integer. -/
def fmtNat (n : Nat) : Bytes := fmtNatAux n n []

/-- What `fmt.Sprint` prints for a signed integer: the text of a test ID
that is a Go integer. -/
def fmtInt : Int → Bytes
  | Int.ofNat n => fmtNat n
  | Int.negSucc n => 45 :: fmtNat (n + 1)

/-! ## The test description -/

/-- Modelled from the spec: the declaration of `sharedapi.Test` (package
`tools/reliability/api`) is not among the sources.  The fields are those
`Run` reads: the identity, the emission cycle count, the count of deliveries
to wait for, the delay and the timeout.  The spec gives the identity as a
string; `ID` is the text `fmt.Sprint` prints for it, whatever its Go type.
The two counts are `uint64`, as the parameters of `writeLogs` and
`receiveLogs` are. -/
structure Test where
  ID : Bytes
  Cycles : Nat
  WriteCycles : Nat
  Delay : Int
  Timeout : Int
  deriving DecidableEq

/-- The expression `fmt.Sprint(r.subscriptionIDPrefix, t.ID)`: the prefix is
a string, so no space is inserted between the operands, and the result is
the prefix followed by the text of the ID. -/
def subscriptionID (subscriptionIDPrefix : Bytes) (id : Bytes) : Bytes :=
  subscriptionIDPrefix ++ id

/-- The expression `fmt.Sprintf("%s - PRIMER", subscriptionID)`. -/
def primerMsg (subscriptionID : Bytes) : Bytes := subscriptionID ++ primerSuffix

/-- The expression `fmt.Sprintf("%s - TEST", subscriptionID)`. -/
def testLog (subscriptionID : Bytes) : Bytes := subscriptionID ++ testSuffix

/-! ## `writeLogs` -/

/-- The lines `writeLogs` prints: `logMsg`, once per loop iteration. -/
def writeLogs : Bytes → Nat → List Bytes
  | _, 0 => []
  | logMsg, cycles + 1 => logMsg :: writeLogs logMsg cycles

/-! ## `receiveLogs` -/

/-- The test both loops apply to an inbound envelope: a log message whose
payload contains the tag. -/
def isTagged (tag : Bytes) (msg : Option Envelope) : Bool :=
  decide (GetEventType msg = EventType.LogMessage) &&
    bytesContains (GetMessage (GetLogMessage msg)) tag

/-- The `msgChan` case of `receiveLogs` up to the completion test: the new
value of `receivedLogCount`. -/
def countMsg (logMsg : Bytes) (receivedLogCount : Nat) (msg : Option Envelope) : Nat :=
  if isTagged logMsg msg then (receivedLogCount + 1) % uint64Size else receivedLogCount

/-- The `return` statement a loop left through. -/
inductive Exit where
  | deadline
  | errChan
  | target
  deriving DecidableEq

/-- The loop of `receiveLogs`, started with a given `receivedLogCount`:
the branch it returns from, the count and the error. -/
def receiveLoop (logMsg : Bytes) (logCycles : Nat) :
    Nat → List Event → Option (Exit × Nat × Option GoError)
  | _, [] => none
  | receivedLogCount, Event.ctxDone :: _ => some (Exit.deadline, receivedLogCount, none)
  | _, Event.errRecv err :: _ => some (Exit.errChan, 0, err)
  | receivedLogCount, Event.msgRecv msg :: rest =>
    if countMsg logMsg receivedLogCount msg = logCycles then
      some (Exit.target, countMsg logMsg receivedLogCount msg, none)
    else receiveLoop logMsg logCycles (countMsg logMsg receivedLogCount msg) rest

/-- The function `receiveLogs`: the returned pair `(uint64, error)`.  The
timeout is the `ctxDone` event of the list; the `subscriptionID` parameter is
only printed. -/
def receiveLogs (events : List Event) (logMsg : Bytes) (logCycles : Nat) :
    Option (Nat × Option GoError) :=
  (receiveLoop logMsg logCycles 0 events).map Prod.snd

/-! ## `prime` -/

/-- The receiving loop of `prime`: the returned boolean and the events left
for the rest of the trial.  The goroutine that prints the primer line every
second only writes to the log and is not part of the model. -/
def primeLoop (primer : Bytes) : List Event → Option (Bool × List Event)
  | [] => none
  | Event.ctxDone :: rest => some (false, rest)
  | Event.errRecv _ :: rest => some (false, rest)
  | Event.msgRecv msg :: rest =>
    if isTagged primer msg then some (true, rest) else primeLoop primer rest

/-- The function `prime`. -/
def prime (events : List Event) (subscriptionID : Bytes) : Option (Bool × List Event) :=
  primeLoop (primerMsg subscriptionID) events

/-! ## `Run` -/

/-- What `Run` does to its collaborators, in program order.  The diagnostics
that `prime` and `receiveLogs` print are not recorded; the lines the
`writeLogs` goroutine prints are, being the emitted test traffic.  `Report`
carries the two arguments of `reporter.NewTestResult`. -/
inductive Action where
  | Token
  | FirehoseWithoutReconnect (subscriptionID authToken : Bytes)
  | goWriteLogs (lines : List Bytes)
  | Report (t : Test) (receivedLogCount : Nat)
  | logPrintf (format : String) (err : GoError)
  deriving DecidableEq

/-- Is the action a call of `Reporter.Report`? -/
def Action.isReport : Action → Bool
  | Action.Report _ _ => true
  | _ => false

/-- Is the action the start of the `writeLogs` goroutine? -/
def Action.isEmit : Action → Bool
  | Action.goWriteLogs _ => true
  | _ => false

/-- Is the action a call of the `Consumer`? -/
def Action.isConsumer : Action → Bool
  | Action.FirehoseWithoutReconnect _ _ => true
  | _ => false

/-- The method `LogReliabilityTestRunner.Run`.  `auth` is what
`Authenticator.Token` returns, `reportResult` what `Reporter.Report` returns,
`events` the select outcomes on the channels of the firehose.  The result is
the actions performed when `Run` returns, `none` while a loop is still
blocked. -/
def Run (subscriptionIDPrefix : Bytes) (auth : Bytes × Option GoError)
    (reportResult : Option GoError) (events : List Event) (t : Test) :
    Option (List Action) :=
  match auth with
  | (_, some err) =>
    some [Action.Token, Action.logPrintf "failed to authenticate with UAA: %s" err]
  | (authToken, none) =>
    let sid := subscriptionID subscriptionIDPrefix t.ID
    let setup := [Action.Token, Action.FirehoseWithoutReconnect sid authToken]
    match prime events sid with
    | none => none
    | some (false, _) => some setup
    | some (true, rest) =>
      let emit := Action.goWriteLogs (writeLogs (testLog sid) t.WriteCycles)
      match receiveLogs rest (testLog sid) t.Cycles with
      | none => none
      | some (_, some err) =>
        some (setup ++ [emit, Action.logPrintf "Error receiving logs: %s" err])
      | some (receivedLogCount, none) =>
        match reportResult with
        | some err =>
          some (setup ++ [emit, Action.Report t receivedLogCount,
            Action.logPrintf "Error reporting: %s" err])
        | none => some (setup ++ [emit, Action.Report t receivedLogCount])

/-! ## Vocabulary of the properties -/

/-- An envelope of type `LogMessage` carrying the given payload. -/
def logEnvelope (payload : Bytes) : Option Envelope :=
  some ⟨some EventType.LogMessage, some ⟨some payload⟩⟩

/-- The value of `receivedLogCount` after the `msgChan` case has run on each
of the given envelopes in turn. -/
def countAfter (logMsg : Bytes) (msgs : List (Option Envelope)) : Nat :=
  msgs.foldl (countMsg logMsg) 0

/-- The number of envelopes that are log messages whose payload contains the
tag. -/
def taggedCount (tag : Bytes) (msgs : List (Option Envelope)) : Nat :=
  (msgs.filter (fun m =>
    decide (GetEventType m = EventType.LogMessage ∧
      bytesContains (GetMessage (GetLogMessage m)) tag = true))).length

/-! ## Sample data -/

/-- The subscription identity of test 7 under the prefix `t`. -/
def sampleID : Bytes := subscriptionID [116] [55]

/-- An inbound log message carrying the test line of `sampleID`. -/
def sampleTestMsg : Option Envelope := logEnvelope (testLog sampleID)

/-- An inbound log message carrying the primer line of `sampleID`. -/
def samplePrimerMsg : Option Envelope := logEnvelope (primerMsg sampleID)

/-- An inbound envelope that is not a log message. -/
def sampleMetric : Option Envelope := some ⟨some EventType.ValueMetric, none⟩

/-- A test that writes one line and waits for two. -/
def sampleTest : Test :=
  { ID := [55], Cycles := 2, WriteCycles := 1, Delay := 10, Timeout := 5000 }

end Reliability

namespace Stream

/-! ## Source manager -/

/-- The `stream.Resource` record, as the test builds it. -/
structure Resource where
  GUID : String
  Name : String
  deriving DecidableEq

/-- The `orchestrator.Task` record, as the test reads it. -/
structure Task where
  Name : Resource
  Instances : Int
  deriving DecidableEq

/-- The `spyOrchestrator` of the test: the values sent on its two channels,
oldest first. -/
structure spyOrchestrator where
  tasks : List (List Task)
  nextTerm : List Bool
  deriving DecidableEq

/-- The constructor `newFakeOrchestrator`: both channels empty. -/
def newFakeOrchestrator : spyOrchestrator := ⟨[], []⟩

/-- The method `(*spyOrchestrator).NextTerm`: sends `true` on `nextTerm`. -/
def spyOrchestrator.NextTerm (o : spyOrchestrator) : spyOrchestrator :=
  { o with nextTerm := o.nextTerm ++ [true] }

/-- The method `(*spyOrchestrator).UpdateTasks`: sends the plan on `tasks`. -/
def spyOrchestrator.UpdateTasks (o : spyOrchestrator) (t : List Task) : spyOrchestrator :=
  { o with tasks := o.tasks ++ [t] }

/-- The method `(*stubSourceProvider).Resources`: the stored pair. -/
def stubResources (resources : List Resource) (err : Option String) :
    List Resource × Option String :=
  (resources, err)

/-- A call the source manager makes on the `Orchestrator` interface. -/
inductive OrchestratorCall where
  | UpdateTasks (plan : List Task)
  | NextTerm
  deriving DecidableEq

/-- Modelled from the spec: the scheduling plan of the source manager
(`source_manager.go` is not among the sources), "one task per Resource,
instance count 1". -/
def buildPlan (resources : List Resource) : List Task :=
  resources.map (fun r => { Name := r, Instances := 1 })

/-- Modelled from the spec: one poll tick of the source manager
(`source_manager.go` is not among the sources).  "On success: build a
SchedulingPlan, call Orchestrator.UpdateTasks(plan), then call
Orchestrator.NextTerm().  On failure: log, skip both UpdateTasks and NextTerm
for this tick." -/
def pollTick (provided : List Resource × Option String) : List OrchestratorCall :=
  match provided with
  | (_, some _) => []
  | (resources, none) =>
    [OrchestratorCall.UpdateTasks (buildPlan resources), OrchestratorCall.NextTerm]

/-- The effect of one call on the spy orchestrator. -/
def applyCall (o : spyOrchestrator) : OrchestratorCall → spyOrchestrator
  | OrchestratorCall.UpdateTasks plan => o.UpdateTasks plan
  | OrchestratorCall.NextTerm => o.NextTerm

/-- The spy orchestrator after the calls of a list, in order. -/
def applyCalls (o : spyOrchestrator) (calls : List OrchestratorCall) : spyOrchestrator :=
  calls.foldl applyCall o

end Stream

namespace LogCacheBlackbox

/-! ## Group reader: the source IDs of a shard group -/

/-- The `VCapApp` record of `config.go`. -/
structure VCapApp where
  ApplicationID : String
  deriving DecidableEq

/-- The `Config` record of `config.go`, with the address field under the
name `group_reader_handlers.go` reads it by. -/
structure Config where
  LogCacheAddr : String
  Port : Int
  VCapApp : VCapApp
  UAAAddr : String
  UAAClient : String
  UAAClientSecret : String
  SkipSSLValidation : Bool
  deriving DecidableEq

/-- The `for k := range meta` loop of `sourceIDs`, run over the keys of the
map in the order the iteration yields them, from a given value of the slice
`sourceIDs`. -/
def sourceIDsLoop (cfg : Config) (size : Int) : List String → List String → List String
  | [], sourceIDs => sourceIDs
  | k :: keys, sourceIDs =>
    if k = cfg.VCapApp.ApplicationID then sourceIDsLoop cfg size keys sourceIDs
    else if (sourceIDs.length : Int) < size - 1 then
      sourceIDsLoop cfg size keys (sourceIDs ++ [k])
    else sourceIDsLoop cfg size keys sourceIDs

/-- The function `sourceIDs`.  `metaResult` is what `client.Meta` returns: the
keys of the map in iteration order, and the error.  `maxCap` is the largest
capacity for which `make([]string, 0, _)` returns on the platform.  The
result is the returned pair `([]string, error)`, or `none` when
`make([]string, 0, size)` panics: on a negative capacity, and on one beyond
the allocation limit (`makeslice: cap out of range`).  Once `make` has
accepted `size` the expression `size - 1` cannot wrap. -/
def sourceIDs (maxCap : Nat) (metaResult : List String × Option String) (cfg : Config)
    (size : Int) : Option (List String × Option String) :=
  match metaResult with
  | (_, some err) => some ([], some err)
  | (keys, none) =>
    if size < 0 ∨ (maxCap : Int) < size then none
    else some (sourceIDsLoop cfg size keys [] ++ [cfg.VCapApp.ApplicationID], none)

/-- A capacity limit: `2 ^ 44` strings of 16 bytes fill a heap of `2 ^ 48`
bytes. -/
def sampleMaxCap : Nat := 17592186044416

/-- A configuration of the application `app`. -/
def sampleConfig : Config :=
  { LogCacheAddr := "https://log-cache", Port := 8080, VCapApp := { ApplicationID := "app" },
    UAAAddr := "https://uaa", UAAClient := "client", UAAClientSecret := "secret",
    SkipSSLValidation := false }

end LogCacheBlackbox

namespace Reliability

/-! ## Lemmas on the library functions -/

theorem bytesContains_iff (b sub : Bytes) : bytesContains b sub = true ↔ sub <:+: b := by
  induction b with
  | nil => simp [bytesContains, List.isEmpty_iff]
  | cons x t ih =>
    simp only [bytesContains, Bool.or_eq_true, ih, List.isPrefixOf_iff_prefix]
    rw [List.infix_cons_iff]

theorem isTagged_iff (tag : Bytes) (msg : Option Envelope) :
    isTagged tag msg = true ↔
      GetEventType msg = EventType.LogMessage ∧
        bytesContains (GetMessage (GetLogMessage msg)) tag = true := by
  simp [isTagged]

theorem isTagged_logEnvelope (tag payload : Bytes) :
    isTagged tag (logEnvelope payload) = bytesContains payload tag := by
  simp [isTagged, logEnvelope, GetEventType, GetLogMessage, GetMessage]

/-! ## Lemmas on the counting loop -/

theorem countMsg_le (logMsg : Bytes) (c : Nat) (msg : Option Envelope) :
    countMsg logMsg c msg ≤ c + 1 := by
  unfold countMsg
  split
  · exact Nat.mod_le _ _
  · exact Nat.le_succ c

theorem countMsg_of_lt (logMsg : Bytes) (c : Nat) (msg : Option Envelope)
    (hc : c + 1 < uint64Size) :
    countMsg logMsg c msg = c + if isTagged logMsg msg then 1 else 0 := by
  unfold countMsg
  split
  · exact Nat.mod_eq_of_lt hc
  · rfl

theorem taggedCount_nil (tag : Bytes) : taggedCount tag [] = 0 := rfl

theorem taggedCount_cons (tag : Bytes) (m : Option Envelope) (ms : List (Option Envelope)) :
    taggedCount tag (m :: ms) = (if isTagged tag m then 1 else 0) + taggedCount tag ms := by
  unfold taggedCount
  by_cases h : isTagged tag m = true
  · have h2 := (isTagged_iff tag m).1 h
    simp [List.filter_cons, h, h2, Nat.add_comm]
  · have h2 : ¬ (GetEventType m = EventType.LogMessage ∧
        bytesContains (GetMessage (GetLogMessage m)) tag = true) :=
      fun hh => h ((isTagged_iff tag m).2 hh)
    simp [List.filter_cons, h, h2]

/-- While the count is below the target the loop keeps it at most the
target, and a return through the completion test returns the target. -/
theorem receiveLoop_bound (logMsg : Bytes) (logCycles : Nat) :
    ∀ (events : List Event) (c : Nat) (exit : Exit) (n : Nat) (err : Option GoError),
      receiveLoop logMsg logCycles c events = some (exit, n, err) →
        (c < logCycles → n ≤ logCycles) ∧ (exit = Exit.target → n = logCycles) := by
  intro events
  induction events with
  | nil => intro c exit n err h; simp [receiveLoop] at h
  | cons ev rest ih =>
    intro c exit n err h
    cases ev with
    | ctxDone =>
      simp only [receiveLoop, Option.some.injEq, Prod.mk.injEq] at h
      obtain ⟨h1, h2, _⟩ := h
      subst h1 h2
      exact ⟨fun hc => Nat.le_of_lt hc, fun hh => by cases hh⟩
    | errRecv e =>
      simp only [receiveLoop, Option.some.injEq, Prod.mk.injEq] at h
      obtain ⟨h1, h2, _⟩ := h
      subst h1 h2
      exact ⟨fun _ => Nat.zero_le _, fun hh => by cases hh⟩
    | msgRecv m =>
      simp only [receiveLoop] at h
      split at h
      · rename_i heq
        simp only [Option.some.injEq, Prod.mk.injEq] at h
        obtain ⟨_, h2, _⟩ := h
        subst h2
        exact ⟨fun _ => Nat.le_of_eq heq, fun _ => heq⟩
      · rename_i hne
        have hstep := ih _ exit n err h
        refine ⟨fun hc => hstep.1 ?_, hstep.2⟩
        have := countMsg_le logMsg c m
        omega

/-- A run of envelopes that leaves the loop running can be followed by any
events; the loop continues with the count reached. -/
theorem receiveLoop_append_of_none (logMsg : Bytes) (logCycles : Nat) (tail : List Event) :
    ∀ (msgs : List (Option Envelope)) (c : Nat),
      receiveLoop logMsg logCycles c (msgs.map Event.msgRecv) = none →
        receiveLoop logMsg logCycles c (msgs.map Event.msgRecv ++ tail) =
          receiveLoop logMsg logCycles (msgs.foldl (countMsg logMsg) c) tail := by
  intro msgs
  induction msgs with
  | nil => intro c _; rfl
  | cons m ms ih =>
    intro c h
    simp only [List.map_cons, receiveLoop] at h
    simp only [List.map_cons, List.cons_append, receiveLoop, List.foldl_cons]
    split at h
    · cases h
    · rename_i hne
      rw [if_neg hne]
      exact ih _ h

/-- Envelopes whose tagged count never meets the target are consumed with
the count equal to the number of tagged envelopes. -/
theorem receiveLoop_deadline (logMsg : Bytes) (logCycles : Nat)
    (hc : logCycles < uint64Size) (rest : List Event) :
    ∀ (msgs : List (Option Envelope)) (c : Nat), c < logCycles →
      (∀ k, 1 ≤ k → k ≤ msgs.length → c + taggedCount logMsg (msgs.take k) ≠ logCycles) →
        receiveLoop logMsg logCycles c (msgs.map Event.msgRecv ++ Event.ctxDone :: rest) =
            some (Exit.deadline, c + taggedCount logMsg msgs, none) ∧
          c + taggedCount logMsg msgs < logCycles := by
  intro msgs
  induction msgs with
  | nil => intro c hlt _; exact ⟨by simp [receiveLoop, taggedCount], by simpa [taggedCount] using hlt⟩
  | cons m ms ih =>
    intro c hlt hne
    have hstep : countMsg logMsg c m = c + if isTagged logMsg m then 1 else 0 :=
      countMsg_of_lt logMsg c m (by omega)
    have h1 := hne 1 (Nat.le_refl 1) (by simp)
    simp only [List.take_succ_cons, List.take_zero, taggedCount_cons, taggedCount_nil,
      Nat.add_zero] at h1
    have hlt2 : countMsg logMsg c m < logCycles := by
      rw [hstep]; split <;> rename_i ht <;> simp only [ht, if_true, if_false] at h1 <;> omega
    have hrec := ih (countMsg logMsg c m) hlt2 (by
      intro k hk1 hk2
      have := hne (k + 1) (by omega) (by simpa using hk2)
      simp only [List.take_succ_cons, taggedCount_cons] at this
      rw [hstep]; omega)
    simp only [List.map_cons, List.cons_append, receiveLoop, taggedCount_cons]
    rw [if_neg (Nat.ne_of_lt hlt2)]
    rw [hstep] at hrec ⊢
    constructor
    · exact hrec.1.trans (by rw [Nat.add_assoc])
    · have := hrec.2; omega

/-- The loop returns on every event list that holds a deadline or an
error-source event. -/
theorem receiveLoop_returns (logMsg : Bytes) (logCycles : Nat) :
    ∀ (events : List Event) (c : Nat),
      (∃ ev ∈ events, ev = Event.ctxDone ∨ ∃ e, ev = Event.errRecv e) →
        ∃ r, receiveLoop logMsg logCycles c events = some r := by
  intro events
  induction events with
  | nil => rintro c ⟨ev, hev, _⟩; exact absurd hev (List.not_mem_nil ev)
  | cons ev rest ih =>
    intro c h
    cases ev with
    | ctxDone => exact ⟨_, rfl⟩
    | errRecv e => exact ⟨_, rfl⟩
    | msgRecv m =>
      simp only [receiveLoop]
      split
      · exact ⟨_, rfl⟩
      · apply ih
        obtain ⟨ev, hev, hkind⟩ := h
        rcases List.mem_cons.1 hev with rfl | hev
        · rcases hkind with hk | ⟨e, hk⟩ <;> cases hk
        · exact ⟨ev, hev, hkind⟩

/-- After envelopes that left the loop running, a receive from the error
source returns the count 0 and the value received. -/
theorem receiveLogs_error_keeps_error (logMsg : Bytes) (logCycles : Nat)
    (msgs : List (Option Envelope)) (err : Option GoError) (rest : List Event)
    (hrun : receiveLogs (msgs.map Event.msgRecv) logMsg logCycles = none) :
    receiveLogs (msgs.map Event.msgRecv ++ Event.errRecv err :: rest) logMsg logCycles =
      some (0, err) := by
  have hloop : receiveLoop logMsg logCycles 0 (msgs.map Event.msgRecv) = none := by
    simpa [receiveLogs] using hrun
  simp [receiveLogs, receiveLoop_append_of_none logMsg logCycles _ msgs 0 hloop, receiveLoop]

/-! ## Lemmas on the priming loop -/

/-- Envelopes that do not carry the primer are skipped. -/
theorem primeLoop_skip (primer : Bytes) (tail : List Event) :
    ∀ pre : List (Option Envelope), (∀ x ∈ pre, isTagged primer x = false) →
      primeLoop primer (pre.map Event.msgRecv ++ tail) = primeLoop primer tail := by
  intro pre
  induction pre with
  | nil => intro _; rfl
  | cons x xs ih =>
    intro h
    have hx : isTagged primer x = false := h x (List.mem_cons_self x xs)
    simp only [List.map_cons, List.cons_append, primeLoop, hx, Bool.false_eq_true, if_false]
    exact ih (fun y hy => h y (List.mem_cons_of_mem x hy))

/-- A primer among the leading envelopes ends the loop with `true`. -/
theorem primeLoop_found (primer : Bytes) (m : Option Envelope) (post : List Event)
    (hm : isTagged primer m = true) :
    ∀ pre : List (Option Envelope),
      ∃ rest, primeLoop primer (pre.map Event.msgRecv ++ Event.msgRecv m :: post) =
        some (true, rest) := by
  intro pre
  induction pre with
  | nil => exact ⟨post, by simp [primeLoop, hm]⟩
  | cons x xs ih =>
    by_cases hx : isTagged primer x = true
    · exact ⟨xs.map Event.msgRecv ++ Event.msgRecv m :: post, by
        simp only [List.map_cons, List.cons_append, primeLoop, hx, if_true]
        rfl⟩
    · obtain ⟨rest, hrest⟩ := ih
      exact ⟨rest, by
        simp only [List.map_cons, List.cons_append, primeLoop, hx, if_false]
        exact hrest⟩

/-- Envelopes without a primer leave the priming loop blocked. -/
theorem primeLoop_blocked (primer : Bytes) (msgs : List (Option Envelope))
    (h : ∀ x ∈ msgs, isTagged primer x = false) :
    primeLoop primer (msgs.map Event.msgRecv) = none := by
  have := primeLoop_skip primer [] msgs h
  simpa [primeLoop] using this

/-- The shape of the events behind each result of the priming loop. -/
theorem primeLoop_shape (primer : Bytes) :
    ∀ events : List Event,
      (primeLoop primer events = none →
        ∃ msgs : List (Option Envelope), events = msgs.map Event.msgRecv ∧
          ∀ x ∈ msgs, isTagged primer x = false) ∧
      (∀ b rest, primeLoop primer events = some (b, rest) →
        ∃ (pre : List (Option Envelope)) (ev : Event),
          events = pre.map Event.msgRecv ++ ev :: rest ∧
          (∀ x ∈ pre, isTagged primer x = false) ∧
          (b = true → ∃ m, ev = Event.msgRecv m ∧ isTagged primer m = true) ∧
          (b = false → ev = Event.ctxDone ∨ ∃ e, ev = Event.errRecv e)) := by
  intro events
  induction events with
  | nil =>
    refine ⟨fun _ => ⟨[], rfl, fun x hx => absurd hx (List.not_mem_nil x)⟩, ?_⟩
    intro b rest h; simp [primeLoop] at h
  | cons ev evs ih =>
    cases ev with
    | ctxDone =>
      refine ⟨fun h => by simp [primeLoop] at h, ?_⟩
      intro b rest h
      simp only [primeLoop, Option.some.injEq, Prod.mk.injEq] at h
      obtain ⟨hb, hr⟩ := h
      subst hb hr
      exact ⟨[], Event.ctxDone, rfl, fun x hx => absurd hx (List.not_mem_nil x), fun hh => Bool.noConfusion hh,
        fun _ => Or.inl rfl⟩
    | errRecv e =>
      refine ⟨fun h => by simp [primeLoop] at h, ?_⟩
      intro b rest h
      simp only [primeLoop, Option.some.injEq, Prod.mk.injEq] at h
      obtain ⟨hb, hr⟩ := h
      subst hb hr
      exact ⟨[], Event.errRecv e, rfl, fun x hx => absurd hx (List.not_mem_nil x), fun hh => Bool.noConfusion hh,
        fun _ => Or.inr ⟨e, rfl⟩⟩
    | msgRecv m =>
      by_cases hm : isTagged primer m = true
      · refine ⟨fun h => by simp [primeLoop, hm] at h, ?_⟩
        intro b rest h
        simp only [primeLoop, hm, if_true, Option.some.injEq, Prod.mk.injEq] at h
        obtain ⟨hb, hr⟩ := h
        subst hb hr
        exact ⟨[], Event.msgRecv m, rfl, fun x hx => absurd hx (List.not_mem_nil x), fun _ => ⟨m, rfl, hm⟩,
          fun hh => Bool.noConfusion hh⟩
      · have hm2 : isTagged primer m = false := by simpa using hm
        constructor
        · intro h
          simp only [primeLoop, hm, if_false] at h
          obtain ⟨msgs, he, hu⟩ := ih.1 h
          refine ⟨m :: msgs, by simp [he], ?_⟩
          intro x hx
          rcases List.mem_cons.1 hx with rfl | hx
          · exact hm2
          · exact hu x hx
        · intro b rest h
          simp only [primeLoop, hm, if_false] at h
          obtain ⟨pre, ev, he, hu, ht, hf⟩ := ih.2 b rest h
          refine ⟨m :: pre, ev, by simp [he], ?_, ht, hf⟩
          intro x hx
          rcases List.mem_cons.1 hx with rfl | hx
          · exact hm2
          · exact hu x hx

/-! ## The paths through `Run` -/

theorem Run_of_auth_error (pfx authToken : Bytes) (err : GoError)
    (reportResult : Option GoError) (events : List Event) (t : Test) :
    Run pfx (authToken, some err) reportResult events t =
      some [Action.Token, Action.logPrintf "failed to authenticate with UAA: %s" err] :=
  rfl

theorem Run_of_prime_false (pfx authToken : Bytes) (reportResult : Option GoError)
    (events : List Event) (t : Test) (rest : List Event)
    (hp : prime events (subscriptionID pfx t.ID) = some (false, rest)) :
    Run pfx (authToken, none) reportResult events t =
      some [Action.Token,
        Action.FirehoseWithoutReconnect (subscriptionID pfx t.ID) authToken] := by
  simp only [Run, hp]

theorem Run_of_receive_error (pfx authToken : Bytes) (reportResult : Option GoError)
    (events : List Event) (t : Test) (running : List Event) (n : Nat) (err : GoError)
    (hp : prime events (subscriptionID pfx t.ID) = some (true, running))
    (hr : receiveLogs running (testLog (subscriptionID pfx t.ID)) t.Cycles =
      some (n, some err)) :
    Run pfx (authToken, none) reportResult events t =
      some [Action.Token,
        Action.FirehoseWithoutReconnect (subscriptionID pfx t.ID) authToken,
        Action.goWriteLogs (writeLogs (testLog (subscriptionID pfx t.ID)) t.WriteCycles),
        Action.logPrintf "Error receiving logs: %s" err] := by
  simp only [Run, hp, hr]
  rfl

theorem Run_of_receive_ok (pfx authToken : Bytes) (reportResult : Option GoError)
    (events : List Event) (t : Test) (running : List Event) (n : Nat)
    (hp : prime events (subscriptionID pfx t.ID) = some (true, running))
    (hr : receiveLogs running (testLog (subscriptionID pfx t.ID)) t.Cycles =
      some (n, none)) :
    Run pfx (authToken, none) reportResult events t =
      some ([Action.Token,
        Action.FirehoseWithoutReconnect (subscriptionID pfx t.ID) authToken,
        Action.goWriteLogs (writeLogs (testLog (subscriptionID pfx t.ID)) t.WriteCycles),
        Action.Report t n] ++
        match reportResult with
        | some err => [Action.logPrintf "Error reporting: %s" err]
        | none => []) := by
  cases reportResult <;> simp only [Run, hp, hr] <;> rfl

theorem Run_of_receive_blocked (pfx authToken : Bytes) (reportResult : Option GoError)
    (events : List Event) (t : Test) (running : List Event)
    (hp : prime events (subscriptionID pfx t.ID) = some (true, running))
    (hr : receiveLogs running (testLog (subscriptionID pfx t.ID)) t.Cycles = none) :
    Run pfx (authToken, none) reportResult events t = none := by
  simp only [Run, hp, hr]

theorem writeLogs_eq_replicate (logMsg : Bytes) (cycles : Nat) :
    writeLogs logMsg cycles = List.replicate cycles logMsg := by
  induction cycles with
  | zero => rfl
  | succ n ih => simp [writeLogs, ih, List.replicate_succ]

end Reliability

namespace Reliability

/-! ## Lemmas on decimal printing -/

theorem digitByte_toNat (d : Nat) (hd : d < 10) : (digitByte d).toNat = 48 + d := by
  interval_cases d <;> rfl

theorem fmtNatAux_value (f : Nat → UInt8 → Nat) (hf : ∀ v b, f v b = 10 * v + (b.toNat - 48)) :
    ∀ (fuel n : Nat) (acc : Bytes), n ≤ fuel →
      (fmtNatAux fuel n acc).foldl f 0 = acc.foldl f n := by
  intro fuel
  induction fuel with
  | zero =>
    intro n acc hn
    have h0 : n = 0 := Nat.le_zero.1 hn
    subst h0
    simp [fmtNatAux, hf, digitByte_toNat 0 (by decide)]
  | succ k ih =>
    intro n acc hn
    unfold fmtNatAux
    split
    · rename_i hlt
      simp [hf, digitByte_toNat n hlt]
    · rename_i hge
      rw [ih (n / 10) _ (by omega)]
      simp only [List.foldl_cons, hf, digitByte_toNat (n % 10) (Nat.mod_lt _ (by decide))]
      congr 1
      omega

theorem fmtNat_injective (m n : Nat) (h : fmtNat m = fmtNat n) : m = n := by
  have hm := fmtNatAux_value (fun v b => 10 * v + (b.toNat - 48)) (fun _ _ => rfl) m m []
    (Nat.le_refl m)
  have hn := fmtNatAux_value (fun v b => 10 * v + (b.toNat - 48)) (fun _ _ => rfl) n n []
    (Nat.le_refl n)
  unfold fmtNat at h
  rw [h] at hm
  simpa using hm.symm.trans hn

/-- A printed natural number consists of decimal digits. -/
theorem fmtNatAux_mem (z : UInt8) :
    ∀ (fuel n : Nat) (acc : Bytes), z ∈ fmtNatAux fuel n acc →
      (∃ d, d < 10 ∧ z = digitByte d) ∨ z ∈ acc := by
  intro fuel
  induction fuel with
  | zero =>
    intro n acc hz
    simp only [fmtNatAux, List.mem_cons] at hz
    rcases hz with rfl | hz
    · exact Or.inl ⟨n % 10, Nat.mod_lt _ (by decide), rfl⟩
    · exact Or.inr hz
  | succ k ih =>
    intro n acc hz
    unfold fmtNatAux at hz
    split at hz
    · rename_i hlt
      rcases List.mem_cons.1 hz with rfl | hz
      · exact Or.inl ⟨n, hlt, rfl⟩
      · exact Or.inr hz
    · rcases ih _ _ hz with hd | hz
      · exact Or.inl hd
      · rcases List.mem_cons.1 hz with rfl | hz
        · exact Or.inl ⟨n % 10, Nat.mod_lt _ (by decide), rfl⟩
        · exact Or.inr hz

theorem fmtNat_mem (z : UInt8) (n : Nat) (hz : z ∈ fmtNat n) :
    ∃ d, d < 10 ∧ z = digitByte d := by
  rcases fmtNatAux_mem z n n [] hz with h | h
  · exact h
  · exact absurd h (List.not_mem_nil z)

theorem digitByte_ne (d : Nat) (hd : d < 10) :
    digitByte d ≠ 32 ∧ digitByte d ≠ 45 ∧
      48 ≤ (digitByte d).toNat ∧ (digitByte d).toNat ≤ 57 := by
  interval_cases d <;> decide

/-- A printed integer consists of decimal digits and the minus sign. -/
theorem fmtInt_mem (z : UInt8) (a : Int) (hz : z ∈ fmtInt a) :
    z = 45 ∨ (48 ≤ z.toNat ∧ z.toNat ≤ 57) := by
  cases a with
  | ofNat n =>
    obtain ⟨d, hd, rfl⟩ := fmtNat_mem z n hz
    exact Or.inr (digitByte_ne d hd).2.2
  | negSucc n =>
    rcases List.mem_cons.1 hz with rfl | hz
    · exact Or.inl rfl
    · obtain ⟨d, hd, rfl⟩ := fmtNat_mem z (n + 1) hz
      exact Or.inr (digitByte_ne d hd).2.2

theorem space_not_mem_fmtInt (a : Int) : (32 : UInt8) ∉ fmtInt a := by
  intro h
  rcases fmtInt_mem 32 a h with h | h
  · exact absurd h (by decide)
  · exact absurd h.1 (by decide)

theorem fmtInt_injective (a b : Int) (h : fmtInt a = fmtInt b) : a = b := by
  have hminus : ∀ n : Nat, (45 : UInt8) ∉ fmtNat n := by
    intro n hn
    obtain ⟨d, hd, he⟩ := fmtNat_mem 45 n hn
    exact (digitByte_ne d hd).2.1 he.symm
  cases a with
  | ofNat m =>
    cases b with
    | ofNat n => exact congrArg Int.ofNat (fmtNat_injective m n h)
    | negSucc n =>
      exfalso
      apply hminus m
      show (45 : UInt8) ∈ fmtInt (Int.ofNat m)
      rw [h]
      exact List.mem_cons_self _ _
  | negSucc m =>
    cases b with
    | ofNat n =>
      exfalso
      apply hminus n
      show (45 : UInt8) ∈ fmtInt (Int.ofNat n)
      rw [← h]
      exact List.mem_cons_self _ _
    | negSucc n =>
      have h2 : fmtNat (m + 1) = fmtNat (n + 1) := List.tail_eq_of_cons_eq h
      have := fmtNat_injective _ _ h2
      have hmn : m = n := by omega
      rw [hmn]

end Reliability

namespace Reliability

/-! ## Lemmas on tags -/

/-- An occurrence of `u ++ s` inside `u ++ p` gives an occurrence of `s`
inside `p`. -/
theorem append_infix_cancel (u s p : Bytes) (h : (u ++ s) <:+: (u ++ p)) : s <:+: p := by
  obtain ⟨a, b, hab⟩ := h
  have hlen := congrArg List.length hab
  simp only [List.length_append] at hlen
  have h1 : (s ++ b) <:+ (u ++ p) := ⟨a ++ u, by simpa [List.append_assoc] using hab⟩
  have h2 : p <:+ (u ++ p) := List.suffix_append u p
  have h3 : (s ++ b) <:+ p :=
    List.suffix_of_suffix_length_le h1 h2 (by simp only [List.length_append]; omega)
  obtain ⟨c, hc⟩ := h3
  exact ⟨c, b, by simpa [List.append_assoc] using hc⟩

/-- Where a line `u ++ ' ' :: sb` can sit inside a line `p ++ a ++ sa` whose
middle part `a` has no space: its separator falls into `sa`. -/
theorem infix_split (p a u sa sb : Bytes) (ha : (32 : UInt8) ∉ a)
    (hu : p.length ≤ u.length) (h : (u ++ 32 :: sb) <:+: (p ++ a ++ sa)) :
    ∃ x c y, x ++ u = p ++ a ++ c ∧ sa = c ++ (32 :: sb) ++ y := by
  obtain ⟨x, y, hxy⟩ := h
  have hxy2 : (x ++ u) ++ (32 :: sb ++ y) = (p ++ a) ++ sa := by
    simpa [List.append_assoc] using hxy
  rcases List.append_eq_append_iff.1 hxy2 with ⟨c, h1, h2⟩ | ⟨c, h1, h2⟩
  · cases c with
    | nil =>
      refine ⟨x, [], y, by simpa using h1.symm, ?_⟩
      simpa using h2.symm
    | cons z zs =>
      exfalso
      have hz : z = 32 := by
        have := congrArg List.head? h2
        simpa using this.symm
      subst hz
      have hlen := congrArg List.length h1
      simp only [List.length_append, List.length_cons] at hlen
      have hs1 : ((32 : UInt8) :: zs) <:+ (p ++ a) := ⟨x ++ u, h1.symm⟩
      have hs2 : a <:+ (p ++ a) := List.suffix_append p a
      have hs3 : ((32 : UInt8) :: zs) <:+ a :=
        List.suffix_of_suffix_length_le hs1 hs2 (by simp only [List.length_cons]; omega)
      exact ha (hs3.subset (List.mem_cons_self _ _))
  · exact ⟨x, c, y, h1, by simpa [List.append_assoc] using h2⟩

theorem testSuffix_not_in_primerSuffix : ¬ testSuffix <:+: primerSuffix := by
  rw [← bytesContains_iff]
  decide

theorem testLog_not_in_primerMsg (sid : Bytes) : ¬ testLog sid <:+: primerMsg sid :=
  fun h => testSuffix_not_in_primerSuffix (append_infix_cancel sid _ _ h)

theorem primerMsg_not_in_testLog (sid : Bytes) : ¬ primerMsg sid <:+: testLog sid := by
  intro h
  have := h.length_le
  simp [primerMsg, testLog, primerSuffix, testSuffix] at this

/-- Lines with the same separator: the line of `p ++ b` occurs in the line of
`p ++ a` exactly when `p ++ b` is a suffix of `p ++ a`. -/
theorem line_infix_iff (p a b s : Bytes) (ha : (32 : UInt8) ∉ a) :
    ((p ++ b) ++ 32 :: s) <:+: ((p ++ a) ++ 32 :: s) ↔ (p ++ b) <:+ (p ++ a) := by
  constructor
  · intro h
    obtain ⟨x, c, y, h1, h2⟩ := infix_split p a (p ++ b) (32 :: s) s ha (by simp) h
    have hlen := congrArg List.length h2
    simp only [List.length_append, List.length_cons] at hlen
    have hc : c = [] := List.length_eq_zero.1 (by omega)
    subst hc
    exact ⟨x, by simpa using h1⟩
  · rintro ⟨x, hx⟩
    exact ⟨x, [], by simp [← hx, List.append_assoc]⟩

/-- Lines with different separators never occur in one another. -/
theorem line_infix_cross (p a b : Bytes) (ha : (32 : UInt8) ∉ a) :
    ¬ testLog (p ++ b) <:+: primerMsg (p ++ a) ∧
      ¬ primerMsg (p ++ b) <:+: testLog (p ++ a) := by
  constructor
  · intro h
    obtain ⟨x, c, y, _, h2⟩ := infix_split p a (p ++ b) primerSuffix
      [45, 32, 84, 69, 83, 84] ha (by simp) h
    exact testSuffix_not_in_primerSuffix ⟨c, y, h2.symm⟩
  · intro h
    obtain ⟨x, c, y, _, h2⟩ := infix_split p a (p ++ b) testSuffix
      [45, 32, 80, 82, 73, 77, 69, 82] ha (by simp) h
    have hlen := congrArg List.length h2
    simp [testSuffix] at hlen
    omega

/-- A proper suffix `p ++ b` of `p ++ a` puts the last byte of `p` into
`a`. -/
theorem last_mem_of_suffix (p a b : Bytes) (z : UInt8) (hz : p.getLast? = some z)
    (hne : p ++ b ≠ p ++ a) (h : (p ++ b) <:+ (p ++ a)) : z ∈ a := by
  obtain ⟨q, rfl⟩ : ∃ q, p = q ++ [z] := by
    rcases List.eq_nil_or_concat p with rfl | ⟨q, w, rfl⟩
    · simp at hz
    · refine ⟨q, ?_⟩
      have hw : w = z := by
        simpa [List.concat_eq_append, List.getLast?_append, Option.or] using hz
      rw [hw, List.concat_eq_append]
  obtain ⟨x, hx⟩ := h
  have hlen := congrArg List.length hx
  simp only [List.length_append, List.length_singleton] at hlen
  have hxne : x ≠ [] := by
    rintro rfl
    exact hne (by simpa using hx)
  have hxpos : 0 < x.length := List.length_pos.2 hxne
  have hs1 : (z :: b) <:+ (q ++ [z] ++ a) := ⟨x ++ q, by simpa [List.append_assoc] using hx⟩
  have hs2 : a <:+ (q ++ [z] ++ a) := List.suffix_append _ a
  have hs3 : (z :: b) <:+ a :=
    List.suffix_of_suffix_length_le hs1 hs2 (by simp only [List.length_cons]; omega)
  exact hs3.subset (List.mem_cons_self _ _)

theorem testLog_infix_iff (pfx a b : Bytes) (ha : (32 : UInt8) ∉ a) :
    testLog (subscriptionID pfx b) <:+: testLog (subscriptionID pfx a) ↔
      subscriptionID pfx b <:+ subscriptionID pfx a :=
  line_infix_iff pfx a b [45, 32, 84, 69, 83, 84] ha

theorem primerMsg_infix_iff (pfx a b : Bytes) (ha : (32 : UInt8) ∉ a) :
    primerMsg (subscriptionID pfx b) <:+: primerMsg (subscriptionID pfx a) ↔
      subscriptionID pfx b <:+ subscriptionID pfx a :=
  line_infix_iff pfx a b [45, 32, 80, 82, 73, 77, 69, 82] ha

theorem subscriptionID_injective (pfx a b : Bytes)
    (h : subscriptionID pfx a = subscriptionID pfx b) : a = b :=
  List.append_cancel_left h

/-- Lines of the same kind of two IDs of equal length occur in one another
only when the IDs are equal. -/
theorem line_infix_of_length (p a b s : Bytes) (hlen : a.length = b.length)
    (h : ((p ++ b) ++ s) <:+: ((p ++ a) ++ s)) : b = a := by
  have heq := h.eq_of_length (by simp only [List.length_append]; omega)
  exact List.append_cancel_left (List.append_cancel_right heq)

/-- Lines of different kinds of two IDs of equal length never occur in one
another. -/
theorem line_infix_cross_of_length (p a b : Bytes) (hlen : a.length = b.length) :
    ¬ testLog (p ++ b) <:+: primerMsg (p ++ a) ∧
      ¬ primerMsg (p ++ b) <:+: testLog (p ++ a) := by
  constructor
  · rintro ⟨x, y, hxy⟩
    have hl := congrArg List.length hxy
    simp only [testLog, primerMsg, testSuffix, primerSuffix, List.length_append,
      List.length_cons, List.length_nil] at hl
    have h1 : (testSuffix ++ y) <:+ ((p ++ a) ++ primerSuffix) :=
      ⟨x ++ (p ++ b), by simpa [testLog, primerMsg, List.append_assoc] using hxy⟩
    have h2 : primerSuffix <:+ ((p ++ a) ++ primerSuffix) := List.suffix_append _ _
    have h3 : (testSuffix ++ y) <:+ primerSuffix :=
      List.suffix_of_suffix_length_le h1 h2 (by
        simp only [testSuffix, primerSuffix, List.length_append, List.length_cons,
          List.length_nil]
        omega)
    obtain ⟨c, hc⟩ := h3
    exact testSuffix_not_in_primerSuffix ⟨c, y, by simpa [List.append_assoc] using hc⟩
  · intro h
    have hl := h.length_le
    simp only [testLog, primerMsg, testSuffix, primerSuffix, List.length_append,
      List.length_cons, List.length_nil] at hl
    omega

/-- An envelope is left uncounted at every count exactly when it is not
tagged. -/
theorem countMsg_fixed_iff (logMsg : Bytes) (msg : Option Envelope) :
    (∀ c, countMsg logMsg c msg = c) ↔ isTagged logMsg msg = false := by
  constructor
  · intro h
    have h0 := h 0
    unfold countMsg at h0
    by_cases ht : isTagged logMsg msg = true
    · rw [if_pos ht] at h0
      exact absurd h0 (by decide)
    · simpa using ht
  · intro h c
    simp [countMsg, h]

/-- An envelope is skipped by the priming loop before every continuation
exactly when it is not tagged. -/
theorem primeLoop_skip_iff (primer : Bytes) (msg : Option Envelope) :
    (∀ rest, primeLoop primer (Event.msgRecv msg :: rest) = primeLoop primer rest) ↔
      isTagged primer msg = false := by
  constructor
  · intro h
    have h0 := h []
    by_cases ht : isTagged primer msg = true
    · simp [primeLoop, ht] at h0
    · simpa using ht
  · intro h rest
    simp [primeLoop, h]

theorem isTagged_logEnvelope_false_iff (tag payload : Bytes) :
    isTagged tag (logEnvelope payload) = false ↔ ¬ tag <:+: payload := by
  rw [isTagged_logEnvelope, ← bytesContains_iff]
  simp

end Reliability

namespace Reliability

/-! ## C1: the returned count and the target -/

/-- C1, as stated, fails for the target 0: the completion test runs only after
an envelope was counted, so a tagged envelope takes the count to 1 and the
deadline then returns 1, which exceeds the target. -/
theorem receiveLogs_exceeds_zero_target :
    receiveLogs [Event.msgRecv sampleTestMsg, Event.ctxDone] (testLog sampleID) 0 =
        some (1, none) ∧ ¬ (1 ≤ 0) := by
  decide

/-- C1 (amended): whenever `receiveLogs` returns, on any sequence of events,
the returned count does not exceed `logCycles` provided `logCycles` is at
least 1, and for every `logCycles` a return through the completion test
returns exactly `logCycles`. -/
theorem receiveLogs_count_le_target (logMsg : Bytes) (logCycles : Nat)
    (events : List Event) (exit : Exit) (n : Nat) (err : Option GoError)
    (hret : receiveLoop logMsg logCycles 0 events = some (exit, n, err)) :
    receiveLogs events logMsg logCycles = some (n, err) ∧
      (1 ≤ logCycles → n ≤ logCycles) ∧ (exit = Exit.target → n = logCycles) := by
  have hb := receiveLoop_bound logMsg logCycles events 0 exit n err hret
  refine ⟨?_, fun hpos => hb.1 hpos, hb.2⟩
  simp [receiveLogs, hret]

/-- C1 (amended), at a trial of two cycles that receives a metric and two
test lines: the loop returns 2 through the completion test. -/
theorem receiveLogs_count_le_target_witness :
    receiveLogs [Event.msgRecv sampleTestMsg, Event.msgRecv sampleMetric,
        Event.msgRecv sampleTestMsg, Event.msgRecv sampleTestMsg] (testLog sampleID) 2 =
        some (2, none) ∧
      (1 ≤ 2 → 2 ≤ 2) ∧ (Exit.target = Exit.target → 2 = 2) :=
  receiveLogs_count_le_target (testLog sampleID) 2
    [Event.msgRecv sampleTestMsg, Event.msgRecv sampleMetric,
      Event.msgRecv sampleTestMsg, Event.msgRecv sampleTestMsg]
    Exit.target 2 none (by decide)

/-! ## C2: return at the deadline -/

/-- C2: when the deadline is the first event that is not an inbound envelope
and at no point before it (the start included) the number of tagged log
messages consumed equals `logCycles`, `receiveLogs` returns a nil error with
the number `n` of tagged log messages consumed, and `0 ≤ n < logCycles`. -/
theorem receiveLogs_deadline_partial_count (logMsg : Bytes) (logCycles : Nat)
    (hc : logCycles < uint64Size) (msgs : List (Option Envelope)) (rest : List Event)
    (hbefore : ∀ k, k ≤ msgs.length → taggedCount logMsg (msgs.take k) ≠ logCycles) :
    receiveLogs (msgs.map Event.msgRecv ++ Event.ctxDone :: rest) logMsg logCycles =
        some (taggedCount logMsg msgs, none) ∧
      0 ≤ taggedCount logMsg msgs ∧ taggedCount logMsg msgs < logCycles := by
  have h0 : 0 < logCycles := by
    have := hbefore 0 (Nat.zero_le _)
    simp only [List.take_zero, taggedCount_nil] at this
    omega
  have h := receiveLoop_deadline logMsg logCycles hc rest msgs 0 h0 (by
    intro k _ hk
    simpa using hbefore k hk)
  simp only [Nat.zero_add] at h
  exact ⟨by simp [receiveLogs, h.1], Nat.zero_le _, h.2⟩

/-- C2, at a trial of five cycles that receives two test lines and a metric
before the deadline: the count returned is 2. -/
theorem receiveLogs_deadline_partial_count_witness :
    receiveLogs ([sampleTestMsg, sampleMetric, sampleTestMsg].map Event.msgRecv ++
        Event.ctxDone :: [Event.msgRecv sampleTestMsg]) (testLog sampleID) 5 =
        some (2, none) ∧
      0 ≤ 2 ∧ 2 < 5 :=
  receiveLogs_deadline_partial_count (testLog sampleID) 5 (by decide)
    [sampleTestMsg, sampleMetric, sampleTestMsg] [Event.msgRecv sampleTestMsg] (by decide)

/-! ## C4: an error during the running phase -/

/-- C4, as stated, fails: after one test line was counted, a non-nil error
makes `receiveLogs` return the count 0, not the count 1 observed so far. -/
theorem receiveLogs_error_drops_count :
    countAfter (testLog sampleID) [sampleTestMsg] = 1 ∧
      receiveLogs [Event.msgRecv sampleTestMsg, Event.errRecv (some "boom")]
        (testLog sampleID) 5 = some (0, some "boom") ∧
      receiveLogs [Event.msgRecv sampleTestMsg, Event.errRecv (some "boom")]
        (testLog sampleID) 5 ≠ some (1, some "boom") := by
  decide

/-- C4 (amended): after any envelopes that left the loop running, a non-nil
error received from the error source makes `receiveLogs` return at once with
the count 0 and that same error. -/
theorem receiveLogs_error_returns_zero (logMsg : Bytes) (logCycles : Nat)
    (msgs : List (Option Envelope)) (e : GoError) (rest : List Event)
    (hrun : receiveLogs (msgs.map Event.msgRecv) logMsg logCycles = none) :
    receiveLogs (msgs.map Event.msgRecv ++ Event.errRecv (some e) :: rest) logMsg logCycles =
      some (0, some e) := by
  exact receiveLogs_error_keeps_error logMsg logCycles msgs (some e) rest hrun

/-- C4 (amended), at a trial of five cycles that counted two test lines
before the error. -/
theorem receiveLogs_error_returns_zero_witness :
    receiveLogs ([sampleTestMsg, sampleTestMsg].map Event.msgRecv ++
        Event.errRecv (some "boom") :: []) (testLog sampleID) 5 = some (0, some "boom") :=
  receiveLogs_error_returns_zero (testLog sampleID) 5 [sampleTestMsg, sampleTestMsg]
    "boom" [] (by decide)

end Reliability

namespace Reliability

/-! ## C5: the result of priming -/

/-- C5: `prime` returns true exactly when, among the inbound envelopes it
consumes before any deadline or error-source event, there is a log message
whose payload contains the primer line `<subscriptionID> - PRIMER`; it
returns false exactly when a deadline or error-source event comes first,
with no such message before it; and it is still waiting exactly when all
events so far are inbound envelopes without the primer line. -/
theorem prime_true_iff_primer_seen (sid : Bytes) (events : List Event) :
    ((∃ rest, prime events sid = some (true, rest)) ↔
      ∃ (pre : List (Option Envelope)) (m : Option Envelope) (post : List Event),
        events = pre.map Event.msgRecv ++ Event.msgRecv m :: post ∧
          isTagged (sid ++ primerSuffix) m = true) ∧
    ((∃ rest, prime events sid = some (false, rest)) ↔
      ∃ (pre : List (Option Envelope)) (ev : Event) (post : List Event),
        events = pre.map Event.msgRecv ++ ev :: post ∧
          (ev = Event.ctxDone ∨ ∃ e, ev = Event.errRecv e) ∧
          ∀ x ∈ pre, isTagged (sid ++ primerSuffix) x = false) ∧
    (prime events sid = none ↔
      ∃ msgs : List (Option Envelope), events = msgs.map Event.msgRecv ∧
        ∀ x ∈ msgs, isTagged (sid ++ primerSuffix) x = false) := by
  have hshape := primeLoop_shape (sid ++ primerSuffix) events
  refine ⟨⟨?_, ?_⟩, ⟨?_, ?_⟩, ⟨hshape.1, ?_⟩⟩
  · rintro ⟨rest, h⟩
    obtain ⟨pre, ev, he, _, ht, _⟩ := hshape.2 true rest h
    obtain ⟨m, hev, hm⟩ := ht rfl
    exact ⟨pre, m, rest, by rw [he, hev], hm⟩
  · rintro ⟨pre, m, post, he, hm⟩
    subst he
    exact primeLoop_found (sid ++ primerSuffix) m post hm pre
  · rintro ⟨rest, h⟩
    obtain ⟨pre, ev, he, hu, _, hf⟩ := hshape.2 false rest h
    exact ⟨pre, ev, rest, he, hf rfl, hu⟩
  · rintro ⟨pre, ev, post, he, hev, hu⟩
    subst he
    refine ⟨post, ?_⟩
    show primeLoop (sid ++ primerSuffix) _ = _
    rw [primeLoop_skip (sid ++ primerSuffix) _ pre hu]
    rcases hev with rfl | ⟨e, rfl⟩ <;> rfl
  · rintro ⟨msgs, he, hu⟩
    subst he
    exact primeLoop_blocked (sid ++ primerSuffix) msgs hu

/-- C5, at `sampleID`: a metric followed by the primer line gives true, a
metric followed by the deadline gives false. -/
theorem prime_true_iff_primer_seen_witness :
    (∃ rest, prime ([sampleMetric].map Event.msgRecv ++
        Event.msgRecv samplePrimerMsg :: []) sampleID = some (true, rest)) ∧
      (∃ rest, prime ([sampleMetric].map Event.msgRecv ++ Event.ctxDone :: [])
        sampleID = some (false, rest)) :=
  ⟨(prime_true_iff_primer_seen sampleID _).1.2
      ⟨[sampleMetric], samplePrimerMsg, [], rfl, by decide⟩,
    (prime_true_iff_primer_seen sampleID _).2.1.2
      ⟨[sampleMetric], Event.ctxDone, [], rfl, Or.inl rfl, by decide⟩⟩

/-! ## C3: a failed trial is not reported -/

/-- C3: `Run` returns without calling `Reporter.Report` when
`Authenticator.Token` returns an error (and then without calling the
`Consumer` either), when `prime` returns false, when the error source yields
a non-nil error while priming, and when it yields one while `receiveLogs` is
running. -/
theorem Run_failure_skips_Report (pfx authToken : Bytes) (reportResult : Option GoError)
    (events : List Event) (t : Test) :
    (∀ err : GoError, ∃ acts,
      Run pfx (authToken, some err) reportResult events t = some acts ∧
        (∀ a ∈ acts, a.isReport = false) ∧ (∀ a ∈ acts, a.isConsumer = false)) ∧
    (∀ rest, prime events (subscriptionID pfx t.ID) = some (false, rest) →
      ∃ acts, Run pfx (authToken, none) reportResult events t = some acts ∧
        ∀ a ∈ acts, a.isReport = false) ∧
    (∀ (pre : List (Option Envelope)) (err : GoError) (rest : List Event),
      events = pre.map Event.msgRecv ++ Event.errRecv (some err) :: rest →
      (∀ x ∈ pre, isTagged (primerMsg (subscriptionID pfx t.ID)) x = false) →
      ∃ acts, Run pfx (authToken, none) reportResult events t = some acts ∧
        ∀ a ∈ acts, a.isReport = false) ∧
    (∀ (running : List Event) (msgs : List (Option Envelope)) (err : GoError)
        (rest : List Event),
      prime events (subscriptionID pfx t.ID) = some (true, running) →
      running = msgs.map Event.msgRecv ++ Event.errRecv (some err) :: rest →
      receiveLogs (msgs.map Event.msgRecv) (testLog (subscriptionID pfx t.ID)) t.Cycles =
        none →
      ∃ acts, Run pfx (authToken, none) reportResult events t = some acts ∧
        ∀ a ∈ acts, a.isReport = false) := by
  have hfalse : ∀ rest, prime events (subscriptionID pfx t.ID) = some (false, rest) →
      ∃ acts, Run pfx (authToken, none) reportResult events t = some acts ∧
        ∀ a ∈ acts, a.isReport = false := by
    intro rest h
    refine ⟨_, Run_of_prime_false pfx authToken reportResult events t rest h, ?_⟩
    intro a ha
    simp only [List.mem_cons, List.mem_singleton, List.not_mem_nil, or_false] at ha
    rcases ha with rfl | rfl <;> rfl
  refine ⟨?_, hfalse, ?_, ?_⟩
  · intro err
    refine ⟨_, Run_of_auth_error pfx authToken err reportResult events t, ?_, ?_⟩ <;>
    · intro a ha
      simp only [List.mem_cons, List.mem_singleton, List.not_mem_nil, or_false] at ha
      rcases ha with rfl | rfl <;> rfl
  · intro pre err rest he hu
    apply hfalse rest
    subst he
    show primeLoop _ _ = _
    rw [primeLoop_skip _ _ pre hu]
    rfl
  · intro running msgs err rest hp hr hloop
    have hrecv := receiveLogs_error_keeps_error (testLog (subscriptionID pfx t.ID)) t.Cycles
      msgs (some err) rest hloop
    rw [← hr] at hrecv
    refine ⟨_, Run_of_receive_error pfx authToken reportResult events t running 0 err hp
      hrecv, ?_⟩
    intro a ha
    simp only [List.mem_cons, List.mem_singleton, List.not_mem_nil, or_false] at ha
    rcases ha with rfl | rfl | rfl | rfl <;> rfl

/-- C3, at four trials of `sampleTest`: a rejected token; a deadline while
priming; an error while priming; an error after the primer and one test
line. -/
theorem Run_failure_skips_Report_witness :
    (∃ acts, Run [116] ([], some "denied") none [] sampleTest = some acts ∧
      (∀ a ∈ acts, a.isReport = false) ∧ (∀ a ∈ acts, a.isConsumer = false)) ∧
    (∃ acts, Run [116] ([120], none) none
        [Event.msgRecv sampleMetric, Event.ctxDone] sampleTest = some acts ∧
      ∀ a ∈ acts, a.isReport = false) ∧
    (∃ acts, Run [116] ([120], none) none
        ([sampleMetric].map Event.msgRecv ++ Event.errRecv (some "closed") :: [])
        sampleTest = some acts ∧
      ∀ a ∈ acts, a.isReport = false) ∧
    (∃ acts, Run [116] ([120], none) none
        [Event.msgRecv samplePrimerMsg, Event.msgRecv sampleTestMsg,
          Event.errRecv (some "closed")] sampleTest = some acts ∧
      ∀ a ∈ acts, a.isReport = false) :=
  ⟨(Run_failure_skips_Report [116] [] none [] sampleTest).1 "denied",
    (Run_failure_skips_Report [116] [120] none
      [Event.msgRecv sampleMetric, Event.ctxDone] sampleTest).2.1 [] (by decide),
    (Run_failure_skips_Report [116] [120] none
      ([sampleMetric].map Event.msgRecv ++ Event.errRecv (some "closed") :: [])
      sampleTest).2.2.1 [sampleMetric] "closed" [] rfl (by decide),
    (Run_failure_skips_Report [116] [120] none
      [Event.msgRecv samplePrimerMsg, Event.msgRecv sampleTestMsg,
        Event.errRecv (some "closed")] sampleTest).2.2.2
      [Event.msgRecv sampleTestMsg, Event.errRecv (some "closed")] [sampleTestMsg]
      "closed" [] (by decide) rfl (by decide)⟩

/-! ## C10: a nil value from the error source -/

/-- C10: when priming succeeded and, with the loop of `receiveLogs` still
running after the envelopes consumed so far, the error source yields a nil
value, `receiveLogs` returns the count 0 with a nil error whatever was
counted, and `Run` calls `Reporter.Report` exactly once, with the received
count 0. -/
theorem Run_nil_error_reports_zero (pfx authToken : Bytes) (reportResult : Option GoError)
    (events : List Event) (t : Test) (running : List Event)
    (msgs : List (Option Envelope)) (rest : List Event)
    (hp : prime events (subscriptionID pfx t.ID) = some (true, running))
    (hr : running = msgs.map Event.msgRecv ++ Event.errRecv none :: rest)
    (hloop : receiveLogs (msgs.map Event.msgRecv) (testLog (subscriptionID pfx t.ID))
      t.Cycles = none) :
    receiveLogs running (testLog (subscriptionID pfx t.ID)) t.Cycles = some (0, none) ∧
      ∃ acts, Run pfx (authToken, none) reportResult events t = some acts ∧
        acts.filter Action.isReport = [Action.Report t 0] := by
  have hrecv := receiveLogs_error_keeps_error (testLog (subscriptionID pfx t.ID)) t.Cycles
    msgs none rest hloop
  rw [← hr] at hrecv
  refine ⟨hrecv, _, Run_of_receive_ok pfx authToken reportResult events t running 0 hp
    hrecv, ?_⟩
  cases reportResult <;> rfl

/-- C10, at a trial of `sampleTest` whose error channel is closed after the
primer and one test line. -/
theorem Run_nil_error_reports_zero_witness :
    receiveLogs [Event.msgRecv sampleTestMsg, Event.errRecv none]
        (testLog (subscriptionID [116] sampleTest.ID)) sampleTest.Cycles = some (0, none) ∧
      ∃ acts, Run [116] ([120], none) none
          [Event.msgRecv samplePrimerMsg, Event.msgRecv sampleTestMsg, Event.errRecv none]
          sampleTest = some acts ∧
        acts.filter Action.isReport = [Action.Report sampleTest 0] :=
  Run_nil_error_reports_zero [116] [120] none
    [Event.msgRecv samplePrimerMsg, Event.msgRecv sampleTestMsg, Event.errRecv none]
    sampleTest [Event.msgRecv sampleTestMsg, Event.errRecv none] [sampleTestMsg] []
    (by decide) rfl (by decide)

/-! ## C8: lines emitted and deliveries awaited -/

/-- C8, as stated, fails: for a test with `WriteCycles = 1` and `Cycles = 2`
the emitter is started for one line, while `Run` is still waiting after one
delivery and reports only after two. -/
theorem Run_emits_one_awaits_two :
    Run [116] ([120], none) none
        [Event.msgRecv samplePrimerMsg, Event.msgRecv sampleTestMsg] sampleTest = none ∧
      Run [116] ([120], none) none
        [Event.msgRecv samplePrimerMsg, Event.msgRecv sampleTestMsg,
          Event.msgRecv sampleTestMsg] sampleTest =
        some [Action.Token, Action.FirehoseWithoutReconnect sampleID [120],
          Action.goWriteLogs [testLog sampleID], Action.Report sampleTest 2] := by
  decide

/-- C8 (amended): once priming succeeded, whenever `Run` returns it has
started the emitter exactly once, for exactly `t.WriteCycles` lines, each the
test line; it returns exactly when `receiveLogs` with the target `t.Cycles`
returns, and reports `t` with the count received; so the number of lines
emitted equals the number of deliveries awaited exactly when
`t.WriteCycles = t.Cycles`. -/
theorem Run_emits_WriteCycles_awaits_Cycles (pfx authToken : Bytes)
    (reportResult : Option GoError) (events : List Event) (t : Test)
    (running : List Event)
    (hp : prime events (subscriptionID pfx t.ID) = some (true, running)) :
    (∀ acts, Run pfx (authToken, none) reportResult events t = some acts →
      acts.filter Action.isEmit =
        [Action.goWriteLogs
          (List.replicate t.WriteCycles (testLog (subscriptionID pfx t.ID)))]) ∧
    (∀ acts, Run pfx (authToken, none) reportResult events t = some acts →
      ∃ n err, receiveLogs running (testLog (subscriptionID pfx t.ID)) t.Cycles =
          some (n, err) ∧
        (err = none → acts.filter Action.isReport = [Action.Report t n])) ∧
    (∀ n err, receiveLogs running (testLog (subscriptionID pfx t.ID)) t.Cycles =
        some (n, err) →
      ∃ acts, Run pfx (authToken, none) reportResult events t = some acts) ∧
    ((writeLogs (testLog (subscriptionID pfx t.ID)) t.WriteCycles).length = t.Cycles ↔
      t.WriteCycles = t.Cycles) := by
  have hlen : (writeLogs (testLog (subscriptionID pfx t.ID)) t.WriteCycles).length =
      t.WriteCycles := by
    rw [writeLogs_eq_replicate, List.length_replicate]
  rcases hrecv : receiveLogs running (testLog (subscriptionID pfx t.ID)) t.Cycles with
    _ | ⟨n, _ | err⟩
  · have hnone := Run_of_receive_blocked pfx authToken reportResult events t running hp hrecv
    refine ⟨?_, ?_, ?_, by rw [hlen]⟩
    · intro acts h; rw [hnone] at h; cases h
    · intro acts h; rw [hnone] at h; cases h
    · intro n err h; cases h
  · have hok := Run_of_receive_ok pfx authToken reportResult events t running n hp hrecv
    refine ⟨?_, ?_, ?_, by rw [hlen]⟩
    · intro acts h
      rw [hok] at h
      cases h
      rw [writeLogs_eq_replicate]
      cases reportResult <;> rfl
    · intro acts h
      rw [hok] at h
      cases h
      exact ⟨n, none, rfl, fun _ => by cases reportResult <;> rfl⟩
    · intro _ _ _
      exact ⟨_, hok⟩
  · have herr := Run_of_receive_error pfx authToken reportResult events t running n err hp
      hrecv
    refine ⟨?_, ?_, ?_, by rw [hlen]⟩
    · intro acts h
      rw [herr] at h
      cases h
      rw [writeLogs_eq_replicate]
      rfl
    · intro acts h
      rw [herr] at h
      cases h
      exact ⟨n, some err, rfl, fun hh => by cases hh⟩
    · intro _ _ _
      exact ⟨_, herr⟩

/-- C8 (amended), at a trial of `sampleTest` that receives the primer and two
test lines: one line is emitted, two deliveries are awaited and reported. -/
theorem Run_emits_WriteCycles_awaits_Cycles_witness :
    prime [Event.msgRecv samplePrimerMsg, Event.msgRecv sampleTestMsg,
        Event.msgRecv sampleTestMsg] (subscriptionID [116] sampleTest.ID) =
      some (true, [Event.msgRecv sampleTestMsg, Event.msgRecv sampleTestMsg]) ∧
    [Action.Token, Action.FirehoseWithoutReconnect sampleID [120],
        Action.goWriteLogs [testLog sampleID], Action.Report sampleTest 2].filter
        Action.isEmit =
      [Action.goWriteLogs (List.replicate sampleTest.WriteCycles
        (testLog (subscriptionID [116] sampleTest.ID)))] ∧
    (∃ n err, receiveLogs [Event.msgRecv sampleTestMsg, Event.msgRecv sampleTestMsg]
        (testLog (subscriptionID [116] sampleTest.ID)) sampleTest.Cycles =
        some (n, err) ∧
      (err = none →
        [Action.Token, Action.FirehoseWithoutReconnect sampleID [120],
          Action.goWriteLogs [testLog sampleID], Action.Report sampleTest 2].filter
          Action.isReport = [Action.Report sampleTest n])) ∧
    (∃ acts, Run [116] ([120], none) none
      [Event.msgRecv samplePrimerMsg, Event.msgRecv sampleTestMsg,
        Event.msgRecv sampleTestMsg] sampleTest = some acts) :=
  ⟨by decide,
    (Run_emits_WriteCycles_awaits_Cycles [116] [120] none
      [Event.msgRecv samplePrimerMsg, Event.msgRecv sampleTestMsg,
        Event.msgRecv sampleTestMsg] sampleTest
      [Event.msgRecv sampleTestMsg, Event.msgRecv sampleTestMsg] (by decide)).1 _
      (by decide),
    (Run_emits_WriteCycles_awaits_Cycles [116] [120] none
      [Event.msgRecv samplePrimerMsg, Event.msgRecv sampleTestMsg,
        Event.msgRecv sampleTestMsg] sampleTest
      [Event.msgRecv sampleTestMsg, Event.msgRecv sampleTestMsg] (by decide)).2.1 _
      (by decide),
    (Run_emits_WriteCycles_awaits_Cycles [116] [120] none
      [Event.msgRecv samplePrimerMsg, Event.msgRecv sampleTestMsg,
        Event.msgRecv sampleTestMsg] sampleTest
      [Event.msgRecv sampleTestMsg, Event.msgRecv sampleTestMsg] (by decide)).2.2.1 2 none
      (by decide)⟩

end Reliability

namespace Reliability

/-! ## C6: the primer line and the test line -/

/-- C6: for every subscription identity the primer line and the test line
do not occur in one another; a log message whose payload is exactly the
primer line leaves the count of `receiveLogs` unchanged, and a log message
whose payload is, or contains, the test line increments the `uint64` count
by exactly one. -/
theorem primer_and_test_lines_disjoint (sid : Bytes) :
    bytesContains (primerMsg sid) (testLog sid) = false ∧
    bytesContains (testLog sid) (primerMsg sid) = false ∧
    (∀ c, countMsg (testLog sid) c (logEnvelope (primerMsg sid)) = c) ∧
    (∀ logCycles, 1 ≤ logCycles →
      receiveLogs [Event.msgRecv (logEnvelope (primerMsg sid)), Event.ctxDone]
        (testLog sid) logCycles = some (0, none)) ∧
    bytesContains (testLog sid) (testLog sid) = true ∧
    (∀ c payload, bytesContains payload (testLog sid) = true →
      countMsg (testLog sid) c (logEnvelope payload) = (c + 1) % uint64Size ∧
        (c + 1 < uint64Size → countMsg (testLog sid) c (logEnvelope payload) = c + 1)) ∧
    (∀ logCycles payload, 2 ≤ logCycles → bytesContains payload (testLog sid) = true →
      receiveLogs [Event.msgRecv (logEnvelope payload), Event.ctxDone]
        (testLog sid) logCycles = some (1, none)) := by
  have h1 : bytesContains (primerMsg sid) (testLog sid) = false := by
    rw [← Bool.not_eq_true, bytesContains_iff]
    exact testLog_not_in_primerMsg sid
  have h2 : bytesContains (testLog sid) (primerMsg sid) = false := by
    rw [← Bool.not_eq_true, bytesContains_iff]
    exact primerMsg_not_in_testLog sid
  have h3 : ∀ c, countMsg (testLog sid) c (logEnvelope (primerMsg sid)) = c := by
    intro c
    simp [countMsg, isTagged_logEnvelope, h1]
  have h5 : ∀ c payload, bytesContains payload (testLog sid) = true →
      countMsg (testLog sid) c (logEnvelope payload) = (c + 1) % uint64Size := by
    intro c payload hp
    simp [countMsg, isTagged_logEnvelope, hp]
  refine ⟨h1, h2, h3, ?_, ?_, ?_, ?_⟩
  · intro logCycles hpos
    simp only [receiveLogs, receiveLoop, h3 0]
    rw [if_neg (by omega)]
    rfl
  · exact (bytesContains_iff _ _).2 (List.infix_refl _)
  · intro c payload hp
    refine ⟨h5 c payload hp, fun hlt => ?_⟩
    rw [h5 c payload hp, Nat.mod_eq_of_lt hlt]
  · intro logCycles payload hpos hp
    have h1' : countMsg (testLog sid) 0 (logEnvelope payload) = 1 := by
      rw [h5 0 payload hp]; decide
    simp only [receiveLogs, receiveLoop, h1']
    rw [if_neg (by omega)]
    rfl

/-- C6, at `sampleID`: a payload that wraps the test line takes the count
from 3 to 4, and the primer line alone is not counted in a trial of one
cycle. -/
theorem primer_and_test_lines_disjoint_witness :
    (bytesContains (120 :: testLog sampleID ++ [121]) (testLog sampleID) = true ∧
      3 + 1 < uint64Size ∧
      countMsg (testLog sampleID) 3 (logEnvelope (120 :: testLog sampleID ++ [121])) =
        3 + 1) ∧
    (1 ≤ 1 ∧
      receiveLogs [Event.msgRecv (logEnvelope (primerMsg sampleID)), Event.ctxDone]
        (testLog sampleID) 1 = some (0, none)) ∧
    (2 ≤ 2 ∧
      receiveLogs [Event.msgRecv (logEnvelope (120 :: testLog sampleID ++ [121])),
        Event.ctxDone] (testLog sampleID) 2 = some (1, none)) :=
  ⟨⟨by decide, by decide,
      ((primer_and_test_lines_disjoint sampleID).2.2.2.2.2.1 3
        (120 :: testLog sampleID ++ [121]) (by decide)).2 (by decide)⟩,
    ⟨by decide, (primer_and_test_lines_disjoint sampleID).2.2.2.1 1 (by decide)⟩,
    ⟨by decide, (primer_and_test_lines_disjoint sampleID).2.2.2.2.2.2 2
      (120 :: testLog sampleID ++ [121]) (by decide) (by decide)⟩⟩

/-! ## C7: lines of different trials -/

/-- C7, as stated, fails: with an empty prefix, the test line of trial `11`
is counted by the `receiveLogs` of trial `1` and its primer line is accepted
by the `prime` of trial `1`, since `1` is a suffix of `11`. -/
theorem trial_one_counts_trial_eleven :
    ([49, 49] : Bytes) ≠ [49] ∧
      receiveLogs [Event.msgRecv (logEnvelope (testLog (subscriptionID [] [49, 49]))),
          Event.ctxDone] (testLog (subscriptionID [] [49])) 5 = some (1, none) ∧
      prime [Event.msgRecv (logEnvelope (primerMsg (subscriptionID [] [49, 49])))]
          (subscriptionID [] [49]) = some (true, []) := by
  decide

/-- C7 (amended): for every prefix and two distinct test IDs `a` and `b`,
taken as the text printed for them, the subscription identities differ.  When
`a` and `b` have the same length, a log message that is exactly the test line
or the primer line of trial `a` is neither counted by the `receiveLogs` nor
accepted by the `prime` of trial `b`.  When `a` holds no space, the test line
(primer line) of trial `a` is counted by the `receiveLogs` (accepted by the
`prime`) of trial `b` exactly when the identity of `b` is a suffix of the
identity of `a`, which it is not when the prefix ends in a byte that does not
occur in `a`; and the primer line of `a` is never taken for the test line of
`b`, nor the reverse. -/
theorem cross_trial_lines (pfx a b : Bytes) (hab : a ≠ b) :
    subscriptionID pfx a ≠ subscriptionID pfx b ∧
    (a.length = b.length →
      (∀ c, countMsg (testLog (subscriptionID pfx b)) c
        (logEnvelope (testLog (subscriptionID pfx a))) = c) ∧
      (∀ rest, primeLoop (primerMsg (subscriptionID pfx b))
        (Event.msgRecv (logEnvelope (primerMsg (subscriptionID pfx a))) :: rest) =
          primeLoop (primerMsg (subscriptionID pfx b)) rest) ∧
      (∀ c, countMsg (testLog (subscriptionID pfx b)) c
        (logEnvelope (primerMsg (subscriptionID pfx a))) = c) ∧
      (∀ rest, primeLoop (primerMsg (subscriptionID pfx b))
        (Event.msgRecv (logEnvelope (testLog (subscriptionID pfx a))) :: rest) =
          primeLoop (primerMsg (subscriptionID pfx b)) rest)) ∧
    ((32 : UInt8) ∉ a →
      ((∀ c, countMsg (testLog (subscriptionID pfx b)) c
          (logEnvelope (testLog (subscriptionID pfx a))) = c) ↔
        ¬ subscriptionID pfx b <:+ subscriptionID pfx a) ∧
      ((∀ rest, primeLoop (primerMsg (subscriptionID pfx b))
          (Event.msgRecv (logEnvelope (primerMsg (subscriptionID pfx a))) :: rest) =
            primeLoop (primerMsg (subscriptionID pfx b)) rest) ↔
        ¬ subscriptionID pfx b <:+ subscriptionID pfx a) ∧
      (∀ c, countMsg (testLog (subscriptionID pfx b)) c
        (logEnvelope (primerMsg (subscriptionID pfx a))) = c) ∧
      (∀ rest, primeLoop (primerMsg (subscriptionID pfx b))
        (Event.msgRecv (logEnvelope (testLog (subscriptionID pfx a))) :: rest) =
          primeLoop (primerMsg (subscriptionID pfx b)) rest) ∧
      (∀ z, pfx.getLast? = some z → z ∉ a →
        ¬ subscriptionID pfx b <:+ subscriptionID pfx a)) := by
  have hne : subscriptionID pfx b ≠ subscriptionID pfx a :=
    fun h => hab (subscriptionID_injective pfx b a h).symm
  refine ⟨fun h => hne h.symm, ?_, ?_⟩
  · intro hlen
    have hcross := line_infix_cross_of_length pfx a b hlen
    refine ⟨?_, ?_, ?_, ?_⟩
    · rw [countMsg_fixed_iff, isTagged_logEnvelope_false_iff]
      exact fun h => hab (line_infix_of_length pfx a b testSuffix hlen h).symm
    · rw [primeLoop_skip_iff, isTagged_logEnvelope_false_iff]
      exact fun h => hab (line_infix_of_length pfx a b primerSuffix hlen h).symm
    · rw [countMsg_fixed_iff, isTagged_logEnvelope_false_iff]
      exact hcross.1
    · rw [primeLoop_skip_iff, isTagged_logEnvelope_false_iff]
      exact hcross.2
  · intro ha
    have hcross := line_infix_cross pfx a b ha
    refine ⟨?_, ?_, ?_, ?_, ?_⟩
    · rw [countMsg_fixed_iff, isTagged_logEnvelope_false_iff, testLog_infix_iff pfx a b ha]
    · rw [primeLoop_skip_iff, isTagged_logEnvelope_false_iff,
        primerMsg_infix_iff pfx a b ha]
    · rw [countMsg_fixed_iff, isTagged_logEnvelope_false_iff]
      exact hcross.1
    · rw [primeLoop_skip_iff, isTagged_logEnvelope_false_iff]
      exact hcross.2
    · intro z hz hza hsuf
      exact hza (last_mem_of_suffix pfx a b z hz hne hsuf)

/-- C7 (amended), at the prefix `t` and the integer trials 7 and 8, printed
in decimal: the IDs have the same length, 7 holds no space and no `t`, and
the test line of trial 7 leaves the count of trial 8 at 3. -/
theorem cross_trial_lines_witness :
    fmtInt 7 ≠ fmtInt 8 ∧
    subscriptionID [116] (fmtInt 7) ≠ subscriptionID [116] (fmtInt 8) ∧
    ((fmtInt 7).length = (fmtInt 8).length ∧
      countMsg (testLog (subscriptionID [116] (fmtInt 8))) 3
        (logEnvelope (testLog (subscriptionID [116] (fmtInt 7)))) = 3) ∧
    ((32 : UInt8) ∉ fmtInt 7 ∧ ([116] : Bytes).getLast? = some 116 ∧
      (116 : UInt8) ∉ fmtInt 7 ∧
      ¬ subscriptionID [116] (fmtInt 8) <:+ subscriptionID [116] (fmtInt 7)) :=
  ⟨by decide, (cross_trial_lines [116] (fmtInt 7) (fmtInt 8) (by decide)).1,
    ⟨by decide,
      ((cross_trial_lines [116] (fmtInt 7) (fmtInt 8) (by decide)).2.1 (by decide)).1 3⟩,
    ⟨by decide, by decide, by decide,
      ((cross_trial_lines [116] (fmtInt 7) (fmtInt 8) (by decide)).2.2
        (by decide)).2.2.2.2 116 (by decide) (by decide)⟩⟩

end Reliability

namespace Stream

/-! ## C9: one poll tick of the source manager -/

/-- C9: on a poll tick whose `Resources()` succeeds with the list `rs`, the
orchestrator receives exactly one `UpdateTasks` call, whose plan has one task
per resource of `rs`, in order, named by that resource and with `Instances`
equal to 1, followed by exactly one `NextTerm` call; on a tick whose
`Resources()` returns an error it receives no call and the spy orchestrator is
left as it was. -/
theorem pollTick_calls (rs : List Resource) (err : String) (o : spyOrchestrator) :
    pollTick (stubResources rs none) =
        [OrchestratorCall.UpdateTasks (rs.map (fun r => Task.mk r 1)),
          OrchestratorCall.NextTerm] ∧
      (buildPlan rs).length = rs.length ∧
      (∀ i : Nat, (buildPlan rs)[i]? = (rs[i]?).map (fun r => Task.mk r 1)) ∧
      applyCalls o (pollTick (stubResources rs none)) =
        { tasks := o.tasks ++ [rs.map (fun r => Task.mk r 1)],
          nextTerm := o.nextTerm ++ [true] } ∧
      pollTick (stubResources rs (some err)) = [] ∧
      applyCalls o (pollTick (stubResources rs (some err))) = o := by
  refine ⟨rfl, ?_, ?_, rfl, rfl, rfl⟩
  · simp [buildPlan]
  · intro i
    simp [buildPlan]

end Stream

namespace LogCacheBlackbox

/-! ## C11: the source IDs of a shard group -/

/-- The loop appends the keys other than the application ID, in iteration
order, until the slice holds `size - 1` entries. -/
theorem sourceIDsLoop_eq (cfg : Config) (size : Int) :
    ∀ (keys acc : List String),
      sourceIDsLoop cfg size keys acc =
        acc ++ (keys.filter (fun k => decide (k ≠ cfg.VCapApp.ApplicationID))).take
          ((size - 1).toNat - acc.length) := by
  intro keys
  induction keys with
  | nil => intro acc; simp [sourceIDsLoop]
  | cons k ks ih =>
    intro acc
    unfold sourceIDsLoop
    by_cases hk : k = cfg.VCapApp.ApplicationID
    · rw [if_pos hk, ih acc]
      simp [List.filter_cons, hk]
    · rw [if_neg hk]
      have hf : (k :: ks).filter (fun k => decide (k ≠ cfg.VCapApp.ApplicationID)) =
          k :: ks.filter (fun k => decide (k ≠ cfg.VCapApp.ApplicationID)) := by
        simp [List.filter_cons, hk]
      rw [hf]
      by_cases hlt : (acc.length : Int) < size - 1
      · rw [if_pos hlt, ih (acc ++ [k])]
        obtain ⟨m, hm⟩ : ∃ m, (size - 1).toNat - acc.length = m + 1 :=
          ⟨(size - 1).toNat - acc.length - 1, by omega⟩
        have hm2 : (size - 1).toNat - (acc ++ [k]).length = m := by
          simp only [List.length_append, List.length_singleton]
          omega
        rw [hm, hm2, List.take_succ_cons, List.append_assoc, List.singleton_append]
      · rw [if_neg hlt, ih acc]
        have hz : (size - 1).toNat - acc.length = 0 := by omega
        rw [hz, List.take_zero, List.take_zero]

/-- C11, as stated, fails: `size` comes from the query of the request without
a bound, and for `size = 2 ^ 60` (a capacity of `2 ^ 64` bytes of strings)
`make` panics, so `sourceIDs` returns no list although `Meta` succeeded. -/
theorem sourceIDs_panics_on_huge_size :
    (1 : Int) ≤ 1152921504606846976 ∧ ["x", "app"].Nodup ∧
      sourceIDs sampleMaxCap (["x", "app"], none) sampleConfig 1152921504606846976 =
        none := by
  decide

/-- C11 (amended): for every `size` from 1 up to the largest capacity `make`
accepts, every set of keys of the `Meta` result (in any iteration order) and
every application ID, when `Meta` succeeds `sourceIDs` returns a nil error
and a list that ends in the application ID, contains it exactly once, whose
other elements are pairwise distinct keys of the `Meta` result different from
the application ID, and whose length is `min(size, k + 1)`, `k` being the
number of keys different from the application ID; so the length never exceeds
`size`. -/
theorem sourceIDs_shape (maxCap : Nat) (keys : List String) (cfg : Config) (size : Int)
    (hsize : 1 ≤ size) (hcap : size ≤ (maxCap : Int)) (hset : keys.Nodup) :
    ∃ others : List String,
      sourceIDs maxCap (keys, none) cfg size =
        some (others ++ [cfg.VCapApp.ApplicationID], none) ∧
      (others ++ [cfg.VCapApp.ApplicationID]).getLast? = some cfg.VCapApp.ApplicationID ∧
      (others ++ [cfg.VCapApp.ApplicationID]).count cfg.VCapApp.ApplicationID = 1 ∧
      others.Nodup ∧
      (∀ x ∈ others, x ∈ keys ∧ x ≠ cfg.VCapApp.ApplicationID) ∧
      ((others ++ [cfg.VCapApp.ApplicationID]).length : Int) =
        min size (((keys.filter
          (fun k => decide (k ≠ cfg.VCapApp.ApplicationID))).length : Int) + 1) ∧
      ((others ++ [cfg.VCapApp.ApplicationID]).length : Int) ≤ size := by
  have hmem : ∀ x ∈ (keys.filter (fun k => decide (k ≠ cfg.VCapApp.ApplicationID))).take
      (size - 1).toNat, x ∈ keys ∧ x ≠ cfg.VCapApp.ApplicationID := by
    intro x hx
    have := List.mem_filter.1 (List.mem_of_mem_take hx)
    exact ⟨this.1, by simpa using this.2⟩
  have hlen : ((keys.filter (fun k => decide (k ≠ cfg.VCapApp.ApplicationID))).take
      (size - 1).toNat).length =
      min (size - 1).toNat
        (keys.filter (fun k => decide (k ≠ cfg.VCapApp.ApplicationID))).length :=
    List.length_take _ _
  refine ⟨(keys.filter (fun k => decide (k ≠ cfg.VCapApp.ApplicationID))).take
    (size - 1).toNat, ?_, ?_, ?_, ?_, hmem, ?_, ?_⟩
  · have hnot : ¬ (size < 0 ∨ (maxCap : Int) < size) := by omega
    simp only [sourceIDs, if_neg hnot, sourceIDsLoop_eq, List.nil_append, List.length_nil,
      Nat.sub_zero]
  · simp
  · rw [List.count_append, List.count_eq_zero.2 (fun h => (hmem _ h).2 rfl)]
    simp
  · exact (hset.filter _).sublist (List.take_sublist _ _)
  · rw [List.length_append, List.length_singleton, hlen]
    omega
  · rw [List.length_append, List.length_singleton, hlen]
    omega

/-- C11 (amended), at the application `app`, four keys and `size = 3`: the
result is `x`, `y`, `app`. -/
theorem sourceIDs_shape_witness :
    (1 : Int) ≤ 3 ∧ (3 : Int) ≤ (sampleMaxCap : Int) ∧ ["x", "app", "y", "z"].Nodup ∧
      sourceIDs sampleMaxCap (["x", "app", "y", "z"], none) sampleConfig 3 =
        some (["x", "y", "app"], none) ∧
      ∃ others : List String,
        sourceIDs sampleMaxCap (["x", "app", "y", "z"], none) sampleConfig 3 =
          some (others ++ [sampleConfig.VCapApp.ApplicationID], none) ∧
        (others ++ [sampleConfig.VCapApp.ApplicationID]).getLast? =
          some sampleConfig.VCapApp.ApplicationID ∧
        (others ++ [sampleConfig.VCapApp.ApplicationID]).count
          sampleConfig.VCapApp.ApplicationID = 1 ∧
        others.Nodup ∧
        (∀ x ∈ others, x ∈ ["x", "app", "y", "z"] ∧
          x ≠ sampleConfig.VCapApp.ApplicationID) ∧
        ((others ++ [sampleConfig.VCapApp.ApplicationID]).length : Int) =
          min 3 (((["x", "app", "y", "z"].filter
            (fun k => decide (k ≠ sampleConfig.VCapApp.ApplicationID))).length : Int) + 1) ∧
        ((others ++ [sampleConfig.VCapApp.ApplicationID]).length : Int) ≤ 3 :=
  ⟨by decide, by decide, by decide, by decide,
    sourceIDs_shape sampleMaxCap ["x", "app", "y", "z"] sampleConfig 3 (by decide)
      (by decide) (by decide)⟩

end LogCacheBlackbox
